import Mathlib

/-!
Shallow embedding of the openep-py mesh geometry and field-aggregation core,
together with the boundary-selection logic of `openep/analysis/preprocess.py`
and the ablation data structures of `openep/data_structures/ablation.py`.

The repository ships only the test-suite for `openep.mesh.mesh_routines`
(`tests/test_mesh_routines.py`); the module itself is not part of the
source tree available here.  Definitions for that module are therefore
modelled from the specification (spec.md sections 4.1-4.5) and pinned to the
concrete behaviour that the test-suite asserts (error message text, boundary
point counts, disconnected-component semantics).  Each such definition notes
this in its doc comment.  `preprocess.py` and `ablation.py` are embedded
directly from source.

Machine floats are modelled exactly: coordinates and field values are ℚ,
derived lengths/areas live in ℝ (square roots), and NaN is represented
structurally (`Option` / a dedicated `nan` constructor).
-/

/-! ## Geometry over rational coordinates -/

/-- Three-dimensional point with rational coordinates. -/
abbrev Pt := ℚ × ℚ × ℚ

/-- Squared Euclidean distance, computable in ℚ. -/
def sqDistQ (p q : Pt) : ℚ :=
  (p.1 - q.1) ^ 2 + (p.2.1 - q.2.1) ^ 2 + (p.2.2 - q.2.2) ^ 2

/-- Euclidean distance between two rational points, as a real number. -/
noncomputable def ptDist (p q : Pt) : ℝ :=
  Real.sqrt ((sqDistQ p q : ℝ))

/-- Embedding of a rational point into `EuclideanSpace ℝ (Fin 3)`,
used to inherit the triangle inequality. -/
noncomputable def toE (p : Pt) : EuclideanSpace ℝ (Fin 3) :=
  (WithLp.equiv 2 (Fin 3 → ℝ)).symm ![(p.1 : ℝ), (p.2.1 : ℝ), (p.2.2 : ℝ)]

/-- Pointwise addition of points (used for centroids). -/
def addPt (p q : Pt) : Pt :=
  (p.1 + q.1, p.2.1 + q.2.1, p.2.2 + q.2.2)

/-- Pointwise subtraction of points. -/
def subPt (p q : Pt) : Pt :=
  (p.1 - q.1, p.2.1 - q.2.1, p.2.2 - q.2.2)

/-- Scalar multiplication of a point. -/
def smulPt (a : ℚ) (p : Pt) : Pt :=
  (a * p.1, a * p.2.1, a * p.2.2)

/-- Cross product of two vectors in ℚ³. -/
def crossPt (p q : Pt) : Pt :=
  (p.2.1 * q.2.2 - p.2.2 * q.2.1,
   p.2.2 * q.1 - p.1 * q.2.2,
   p.1 * q.2.1 - p.2.1 * q.1)

/-- Squared Euclidean norm of a vector, computable in ℚ. -/
def normSqQ (p : Pt) : ℚ :=
  p.1 ^ 2 + p.2.1 ^ 2 + p.2.2 ^ 2

/-- Euclidean norm of a rational vector, as a real number. -/
noncomputable def normR (p : Pt) : ℝ :=
  Real.sqrt ((normSqQ p : ℝ))

/-- Mean of a list of points (`np.mean(points, axis=0)`). -/
def centroid (ps : List Pt) : Pt :=
  smulPt (1 / (ps.length : ℚ)) (ps.foldr addPt (0, 0, 0))

/-! ## Data model: mesh, edges, adjacency graph

Modelled from the spec: spec.md section 3 (Mesh, Edge, Adjacency Graph) for
the absent `openep.mesh.mesh_routines` module. -/

/-- Mesh: ordered 3D points plus triangular cells referencing point indices. -/
structure Mesh where
  points : List Pt
  cells : List (ℕ × ℕ × ℕ)

/-- Coordinates of point `i` of a mesh (out-of-range indices give the origin;
all claims use in-range indices). -/
def meshPt (m : Mesh) (i : ℕ) : Pt :=
  m.points.getD i (0, 0, 0)

/-- Normalise an unordered vertex pair to (min, max). -/
def sortPair (p : ℕ × ℕ) : ℕ × ℕ :=
  if p.1 ≤ p.2 then p else (p.2, p.1)

/-- The three (normalised) edges of a triangular cell. -/
def cellEdges (c : ℕ × ℕ × ℕ) : List (ℕ × ℕ) :=
  [sortPair (c.1, c.2.1), sortPair (c.2.1, c.2.2), sortPair (c.1, c.2.2)]

/-- All cell edges with multiplicity (an edge shared by two triangles
appears twice; used for boundary-incidence counting). -/
def allEdges (m : Mesh) : List (ℕ × ℕ) :=
  m.cells.flatMap cellEdges

/-- Deduplicated edge set of the mesh graph. -/
def edgeList (m : Mesh) : List (ℕ × ℕ) :=
  (allEdges m).dedup

/-- Adjacency in the undirected graph described by an edge list. -/
def Adj (E : List (ℕ × ℕ)) (u v : ℕ) : Prop :=
  (u, v) ∈ E ∨ (v, u) ∈ E

instance (E : List (ℕ × ℕ)) (u v : ℕ) : Decidable (Adj E u v) := by
  unfold Adj; infer_instance

/-- Vertex universe of an edge list, as a finite set. -/
def vertsF (E : List (ℕ × ℕ)) : Finset ℕ :=
  (E.map Prod.fst ++ E.map Prod.snd).toFinset

/-- One saturation step of reachability: add all vertices adjacent to the
current set. -/
def stepF (E : List (ℕ × ℕ)) (S : Finset ℕ) : Finset ℕ :=
  S ∪ (vertsF E).filter (fun v => ∃ u ∈ S, Adj E u v)

/-- Vertex universe including the source vertex. -/
def uniF (E : List (ℕ × ℕ)) (s : ℕ) : Finset ℕ :=
  insert s (vertsF E)

/-- Iterated saturation from the singleton source set. -/
def iterF (E : List (ℕ × ℕ)) (s : ℕ) (n : ℕ) : Finset ℕ :=
  (stepF E)^[n] {s}

/-- Computable set of vertices reachable from `s` (breadth-first saturation,
iterated enough times to reach the fixpoint). -/
def reachSet (E : List (ℕ × ℕ)) (s : ℕ) : Finset ℕ :=
  iterF E s (uniF E s).card

/-- Graph-theoretic reachability: reflexive-transitive closure of adjacency. -/
def Reach (E : List (ℕ × ℕ)) (s v : ℕ) : Prop :=
  Relation.ReflTransGen (Adj E) s v

/-- Neighbours of a vertex, in edge-list discovery order. -/
def nbrList (E : List (ℕ × ℕ)) (u : ℕ) : List ℕ :=
  (E.filter (fun p => p.1 == u)).map Prod.snd ++
    (E.filter (fun p => p.2 == u)).map Prod.fst

/-! ## Distance/Path Engine

Modelled from the spec: spec.md section 4.2 for the absent
`calculate_vertex_distance` / `calculate_vertex_path` of
`openep.mesh.mesh_routines`.  The accepted metric strings and the error
message are pinned by `tests/test_mesh_routines.py`
(`test_calculate_vertex_distance_invalid_metric`): the implementation
spells the Euclidean metric "euclidian". -/

/-- Result of a distance query: a real value or the float NaN marker. -/
inductive DistResult where
  | nan : DistResult
  | val : ℝ → DistResult

/-- Python exception surrogate (ValueError is the spec's
InvalidArgumentError; AttributeError models missing-attribute access). -/
inductive PyError where
  | valueError : String → PyError
  | attributeError : String → PyError
deriving DecidableEq

/-- A walk along mesh edges from `s` to `e`, inclusive of both endpoints. -/
def VertexPath (E : List (ℕ × ℕ)) (s e : ℕ) (l : List ℕ) : Prop :=
  l.head? = some s ∧ l.getLast? = some e ∧ l.Chain' (Adj E)

/-- Total Euclidean length of a vertex path. -/
noncomputable def pathLen (m : Mesh) (l : List ℕ) : ℝ :=
  ((l.zip l.tail).map (fun p => ptDist (meshPt m p.1) (meshPt m p.2))).sum

/-- Set of lengths of all edge walks from `s` to `e`. -/
def geoSet (m : Mesh) (s e : ℕ) : Set ℝ :=
  { x | ∃ l, VertexPath (edgeList m) s e l ∧ x = pathLen m l }

/-- Geodesic distance: shortest-path distance along mesh edges
(Dijkstra semantics: the infimum of walk lengths); NaN when `start` and
`end` lie in different connected components. -/
noncomputable def geodesicDistance (m : Mesh) (s e : ℕ) : DistResult :=
  if e ∈ reachSet (edgeList m) s then DistResult.val (sInf (geoSet m s e))
  else DistResult.nan

/-- Distance query with metric dispatch.  Modelled from the spec
(section 4.2) and the test-pinned metric strings / error message. -/
noncomputable def calculate_vertex_distance (m : Mesh) (s e : ℕ)
    (metric : String) : Except PyError DistResult :=
  if metric = "geodesic" then Except.ok (geodesicDistance m s e)
  else if metric = "euclidian" then
    Except.ok (DistResult.val (ptDist (meshPt m s) (meshPt m e)))
  else Except.error (PyError.valueError "metric must be on of: geodesic, euclidian")

/-- Depth-first search for a simple path from `cur` to `tgt`, avoiding
`visited`, with explicit fuel. -/
def dfsPath (E : List (ℕ × ℕ)) : ℕ → ℕ → ℕ → List ℕ → Option (List ℕ)
  | 0, _, _, _ => none
  | fuel + 1, cur, tgt, visited =>
    if cur = tgt then some [cur]
    else ((nbrList E cur).filter (fun n => ! visited.contains n)).findSome?
      (fun n => (dfsPath E fuel n tgt (cur :: visited)).map (fun p => cur :: p))

/-- Path query: the ordered vertex sequence of a path from `s` to `e`
(inclusive of both endpoints), or the empty sequence when the two vertices
are disconnected.  Modelled from the spec (section 4.2). -/
def calculate_vertex_path (m : Mesh) (s e : ℕ) : List ℕ :=
  let E := edgeList m
  if e ∈ reachSet E s then (dfsPath E ((uniF E s).card + 1) s e []).getD []
  else []

/-! ## Free Boundary Extractor

Modelled from the spec: spec.md section 4.3 for the absent
`get_free_boundaries` / `FreeBoundary` of `openep.mesh.mesh_routines`.
Boundaries are stored as closed polylines (the starting point repeated at
the end), matching the point counts `[5, 4]` pinned by
`test_get_free_boundaries` for a square plus a triangle. -/

/-- Edges incident to exactly one cell. -/
def boundaryEdges (m : Mesh) : List (ℕ × ℕ) :=
  (edgeList m).filter (fun e => (allEdges m).count e == 1)

/-- Vertices on free boundaries, in discovery order. -/
def boundaryVertList (m : Mesh) : List ℕ :=
  ((boundaryEdges m).map Prod.fst ++ (boundaryEdges m).map Prod.snd).dedup

/-- Group a vertex pool into connected components of the edge graph:
repeatedly take the first unassigned vertex and collect everything
reachable from it. -/
def componentsAux (E : List (ℕ × ℕ)) : ℕ → List ℕ → List (List ℕ)
  | 0, _ => []
  | _, [] => []
  | fuel + 1, v :: rest =>
    ((v :: rest).filter (fun u => decide (u ∈ reachSet E v))) ::
      componentsAux E fuel (rest.filter (fun u => decide (u ∉ reachSet E v)))

/-- Connected components of the boundary-edge graph, in discovery order. -/
def boundaryComponents (m : Mesh) : List (List ℕ) :=
  componentsAux (boundaryEdges m) (boundaryVertList m).length (boundaryVertList m)

/-- Walk a boundary component along its edges, starting from its seed
vertex; visited vertices are moved from the pool to the accumulator. -/
def orderCycleAux (E : List (ℕ × ℕ)) : ℕ → ℕ → List ℕ → List ℕ → List ℕ
  | 0, _, pool, acc => acc.reverse ++ pool
  | fuel + 1, cur, pool, acc =>
    match (nbrList E cur).filter (fun n => decide (n ∈ pool)) with
    | [] => acc.reverse ++ pool
    | n :: _ => orderCycleAux E fuel n (pool.erase n) (n :: acc)

/-- Order a component's vertices into a cycle by walking its edges. -/
def orderCycle (E : List (ℕ × ℕ)) : List ℕ → List ℕ
  | [] => []
  | v :: rest => orderCycleAux E rest.length v rest [v]

/-- Close an ordered cycle into a polyline by repeating the first point. -/
def closePolyline : List ℕ → List ℕ
  | [] => []
  | h :: t => h :: t ++ [h]

/-- Closed boundary polylines of a mesh, one per boundary component. -/
def boundaryPolylines (m : Mesh) : List (List ℕ) :=
  (boundaryComponents m).map
    (fun comp => closePolyline (orderCycle (boundaryEdges m) comp))

/-- Free-boundary extractor state: boundary polylines, the mesh points
they index into, and the lazily built boundary sub-mesh cache
(`FreeBoundary._boundary_meshes`, `None` before the first area query). -/
structure FreeBoundary where
  polylines : List (List ℕ)
  meshPoints : List Pt
  boundary_meshes : Option (List (List (Pt × Pt × Pt)))

/-- Build the free-boundary extractor for a mesh; the sub-mesh cache
starts out absent. -/
def get_free_boundaries (m : Mesh) : FreeBoundary :=
  { polylines := boundaryPolylines m
    meshPoints := m.points
    boundary_meshes := none }

/-- Number of boundary loops. -/
def FreeBoundary.n_boundaries (fb : FreeBoundary) : ℕ :=
  fb.polylines.length

/-- Number of polyline points per boundary loop, in discovery order. -/
def FreeBoundary.n_points_per_boundary (fb : FreeBoundary) : List ℕ :=
  fb.polylines.map List.length

/-- Distinct points of a closed polyline (the closing repeat dropped). -/
def polyPoints (pts : List Pt) (poly : List ℕ) : List Pt :=
  poly.dropLast.map (fun i => pts.getD i (0, 0, 0))

/-- Fan triangulation of a boundary loop around the mean of its points
(the boundary sub-mesh used for area computation). -/
def fanTriangles (pts : List Pt) (poly : List ℕ) : List (Pt × Pt × Pt) :=
  (poly.zip poly.tail).map
    (fun p => (centroid (polyPoints pts poly), pts.getD p.1 (0, 0, 0), pts.getD p.2 (0, 0, 0)))

/-- Area of a triangle: half the norm of the cross product of two sides. -/
noncomputable def triArea (t : Pt × Pt × Pt) : ℝ :=
  normR (crossPt (subPt t.2.1 t.1) (subPt t.2.2 t.1)) / 2

/-- Boundary sub-meshes, one fan triangulation per polyline. -/
def buildBoundaryMeshes (fb : FreeBoundary) : List (List (Pt × Pt × Pt)) :=
  fb.polylines.map (fanTriangles fb.meshPoints)

/-- Total area of a triangulated sub-mesh. -/
noncomputable def subMeshArea (tris : List (Pt × Pt × Pt)) : ℝ :=
  (tris.map triArea).sum

/-- Enclosed area per boundary loop.  The first call builds the boundary
sub-meshes and stores them in the cache; later calls reuse the cache.
Returns the areas together with the updated extractor state. -/
noncomputable def FreeBoundary.calculate_areas (fb : FreeBoundary) :
    List ℝ × FreeBoundary :=
  match fb.boundary_meshes with
  | none =>
    (((buildBoundaryMeshes fb).map subMeshArea),
      { fb with boundary_meshes := some (buildBoundaryMeshes fb) })
  | some ms => (ms.map subMeshArea, fb)

/-- Perimeter per boundary loop: sum of consecutive-point distances along
the closed polyline.  Does not touch the sub-mesh cache. -/
noncomputable def FreeBoundary.calculate_lengths (fb : FreeBoundary) : List ℝ :=
  fb.polylines.map (fun poly =>
    ((poly.zip poly.tail).map
      (fun p => ptDist (fb.meshPoints.getD p.1 (0, 0, 0))
        (fb.meshPoints.getD p.2 (0, 0, 0)))).sum)

/-! ## Region Aggregator

Modelled from the spec: spec.md section 4.5 for the absent
`mean_field_per_region` / `low_field_area_per_region` of
`openep.mesh.mesh_routines`.  Missing measurements (numpy NaN) are
modelled as `Option.none`. -/

/-- Sorted unique labels (`np.unique`). -/
def uniqueSorted (labels : List ℤ) : List ℤ :=
  labels.dedup.insertionSort (· ≤ ·)

/-- Occurrence count per unique label (`np.unique(..., return_counts=True)`). -/
def regionCounts (labels : List ℤ) : List ℕ :=
  (uniqueSorted labels).map (fun r => (labels.filter (fun x => decide (x = r))).length)

/-- Mean of a cell's three vertex values; NaN-propagating, as numpy's
point-to-cell averaging is. -/
def avg3 : Option ℚ → Option ℚ → Option ℚ → Option ℚ
  | some a, some b, some c => some ((a + b + c) / 3)
  | _, _, _ => none

/-- Point-indexed field averaged onto cells. -/
def pointToCell (m : Mesh) (f : List (Option ℚ)) : List (Option ℚ) :=
  m.cells.map (fun c => avg3 (f.getD c.1 none) (f.getD c.2.1 none) (f.getD c.2.2 none))

/-- Field materialisation: a field whose length matches the point count is
averaged onto cells, otherwise it is used as a per-cell field directly. -/
def materializeCellField (m : Mesh) (f : List (Option ℚ)) : List (Option ℚ) :=
  if f.length = m.points.length then pointToCell m f else f

/-- Values that are present (non-NaN). -/
def filterSome (l : List (Option ℚ)) : List ℚ :=
  l.filterMap id

/-- Mean that excludes NaN entries from numerator and denominator
(`np.nanmean`); NaN when no values remain. -/
def nanmeanQ (l : List (Option ℚ)) : Option ℚ :=
  if (filterSome l).length = 0 then none
  else some ((filterSome l).sum / ((filterSome l).length : ℚ))

/-- Field values of the cells carrying region label `r`. -/
def regionValues (cellField : List (Option ℚ)) (labels : List ℤ) (r : ℤ) :
    List (Option ℚ) :=
  ((labels.zip cellField).filter (fun p => decide (p.1 = r))).map Prod.snd

/-- Mean field value per region, one entry per unique label in ascending
order, NaN entries excluded from numerator and denominator. -/
def mean_field_per_region (m : Mesh) (f : List (Option ℚ))
    (cell_region : List ℤ) : List (Option ℚ) :=
  (uniqueSorted cell_region).map
    (fun r => nanmeanQ (regionValues (materializeCellField m f) cell_region r))

/-- Weighted average (`np.average(xs, weights=ws)`). -/
def npAverage (xs : List ℚ) (ws : List ℕ) : ℚ :=
  ((xs.zip ws).map (fun p => p.1 * (p.2 : ℚ))).sum / ((ws.map (Nat.cast : ℕ → ℚ)).sum)

/-- Surface area of one triangular cell. -/
noncomputable def cellArea (m : Mesh) (c : ℕ × ℕ × ℕ) : ℝ :=
  triArea (meshPt m c.1, meshPt m c.2.1, meshPt m c.2.2)

/-- Per-cell surface areas of a mesh. -/
noncomputable def cellAreas (m : Mesh) : List ℝ :=
  m.cells.map (cellArea m)

/-- Mesh together with its attached data slots: the optional pre-seeded
per-cell "Area" array and the "low_value_area" aggregate written by
`low_field_area_per_region`. -/
structure DataMesh where
  mesh : Mesh
  areaCellData : Option (List ℝ)
  lowValueArea : Option ℝ

/-- Threshold predicate for "low" values: NaN never passes
(numpy comparisons with NaN are False). -/
def passLow (threshold : ℚ) : Option ℚ → Bool
  | some x => decide (x ≤ threshold)
  | none => false

/-- Per-cell areas masked by the low-value predicate (area where the cell
field is below threshold, zero elsewhere).  Reuses a pre-seeded "Area"
array when present, else computes areas fresh. -/
noncomputable def maskedAreas (dm : DataMesh) (cf : List (Option ℚ))
    (threshold : ℚ) : List ℝ :=
  (cf.zip (match dm.areaCellData with | some a => a | none => cellAreas dm.mesh)).map
    (fun p => if passLow threshold p.1 then p.2 else 0)

/-- Low-field area per region: for each unique region label the summed area
of that region's cells whose field value is below the threshold.  Writes
the whole-mesh low-value area into the mesh's "low_value_area" slot. -/
noncomputable def low_field_area_per_region (dm : DataMesh)
    (f : List (Option ℚ)) (cell_region : List ℤ) (threshold : ℚ) :
    List ℝ × DataMesh :=
  ((uniqueSorted cell_region).map
      (fun r => (((cell_region.zip (maskedAreas dm (materializeCellField dm.mesh f) threshold)).filter
          (fun p => decide (p.1 = r))).map Prod.snd).sum),
    { dm with lowValueArea := some (maskedAreas dm (materializeCellField dm.mesh f) threshold).sum })

/-! ## Nearest-boundary selection (`openep/analysis/preprocess.py`)

Embedded from `Preprocess.find_mesh_points_at_distance`, lines 118-126:
with more than one boundary the loop whose centre of mass is nearest to
the mean of the points of interest is selected (`np.argmin` over
`np.linalg.norm`); with at most one boundary the extractor's points are
returned directly.  Comparing squared distances is equivalent to comparing
norms (`Real.sqrt` is monotone), so the embedded argmin ranks by `sqDistQ`;
the correctness theorem is stated for the Euclidean distance itself. -/

/-- First index of the minimum of a list (`np.argmin` tie-breaking). -/
def argminAux : List ℚ → ℕ → ℕ → ℚ → ℕ
  | [], _, best, _ => best
  | x :: rest, i, best, bv =>
    if x < bv then argminAux rest (i + 1) i x else argminAux rest (i + 1) best bv

/-- Index of the first minimal element (0 for the empty list). -/
def argminIdx : List ℚ → ℕ
  | [] => 0
  | x :: rest => argminAux rest 1 0 x

/-- Boundary selection of `find_mesh_points_at_distance`: `loops` are the
per-boundary point lists, `boundaryPoints` the extractor's flat point
array, `points_of_interest` the query points. -/
def find_nearest_boundary (loops : List (List Pt)) (boundaryPoints : List Pt)
    (points_of_interest : List Pt) : List Pt :=
  if 1 < loops.length then
    loops.getD (argminIdx (loops.map
      (fun loop => sqDistQ (centroid loop) (centroid points_of_interest)))) []
  else boundaryPoints

/-! ## Ablation data structures (`openep/data_structures/ablation.py`)

Embedded from source.  Python attribute access on `AblationAutoIndex`
instances is modelled by a name-value list holding exactly the attributes
its `__init__` assigns; looking up any other name yields `AttributeError`,
as in Python. -/

/-- Values stored in ablation objects (numpy arrays, None, LandmarkPoints). -/
inductive PyVal where
  | none : PyVal
  | arr : List ℚ → PyVal
  | pts : List Pt → PyVal
  | bools : List Bool → PyVal
  | landmark : PyVal → PyVal → PyVal

/-- Attribute dictionary of an `AblationAutoIndex` instance. -/
abbrev AutoIndexObj := List (String × PyVal)

/-- The `_is_ablation` mask: ones for each point when points are given
(`np.ones(points.shape[0], dtype=bool)`), else None. -/
def isAblationOf : PyVal → PyVal
  | PyVal.pts xs => PyVal.bools (xs.map (fun _ => true))
  | _ => PyVal.none

/-- Attributes assigned by `AblationAutoIndex.__init__`: times,
average_force, max_temp, max_power, force_time_integral, _is_ablation and
ablation_points.  Note that no attribute named "points" is ever assigned;
the coordinates live inside `ablation_points`. -/
def ablationAutoIndexInit
    (times average_force max_temp max_power force_time_integral points : PyVal) :
    AutoIndexObj :=
  [("times", times), ("average_force", average_force), ("max_temp", max_temp),
   ("max_power", max_power), ("force_time_integral", force_time_integral),
   ("_is_ablation", isAblationOf points),
   ("ablation_points", PyVal.landmark points (isAblationOf points))]

/-- Python attribute lookup on an instance dictionary. -/
def getattr (obj : AutoIndexObj) (name : String) : Except PyError PyVal :=
  match obj.find? (fun p => p.1 == name) with
  | some p => Except.ok p.2
  | Option.none => Except.error (PyError.attributeError name)

/-- The `AblationAutoIndex.copy` method: reads the five data attributes and
`self.points`, then rebuilds through the constructor.  (`np.array` copies
are value-identical, so copying a value is the identity here.) -/
def ablationAutoIndexCopy (self : AutoIndexObj) : Except PyError AutoIndexObj := do
  let t ← getattr self "times"
  let af ← getattr self "average_force"
  let mt ← getattr self "max_temp"
  let mp ← getattr self "max_power"
  let fti ← getattr self "force_time_integral"
  let p ← getattr self "points"
  Except.ok (ablationAutoIndexInit t af mt mp fti p)

/-- The `AblationForce` attrs class (five array attributes). -/
structure AblationForce where
  times : PyVal
  force : PyVal
  axial_angle : PyVal
  lateral_angle : PyVal
  points : PyVal

/-- `AblationForce()` with all defaults None. -/
def emptyAblationForce : AblationForce :=
  ⟨PyVal.none, PyVal.none, PyVal.none, PyVal.none, PyVal.none⟩

/-- `AblationForce.copy`: rebuilds with `np.array` copies of each
attribute; value-identical. -/
def ablationForceCopy (f : AblationForce) : AblationForce := f

/-- The `Ablation` attrs class after `__attrs_post_init__` has run. -/
structure Ablation where
  times : PyVal
  power : PyVal
  impedance : PyVal
  temperature : PyVal
  force : AblationForce
  auto_index : AutoIndexObj

/-- The `Ablation(...)` constructor including `__attrs_post_init__`:
`auto_index` is unconditionally replaced by a fresh empty
`AblationAutoIndex()`; `force` is replaced only when it is None. -/
def mkAblation (times power impedance temperature : PyVal)
    (force : Option AblationForce) (auto_index : Option AutoIndexObj) : Ablation :=
  { times := times
    power := power
    impedance := impedance
    temperature := temperature
    force := match force with | some f => f | Option.none => emptyAblationForce
    auto_index := ablationAutoIndexInit PyVal.none PyVal.none PyVal.none
      PyVal.none PyVal.none PyVal.none }

/-- The `Ablation.copy` method: rebuilds through the constructor, passing
copies of `force` and `auto_index`. -/
def Ablation.copy (a : Ablation) : Except PyError Ablation := do
  let fc := ablationForceCopy a.force
  let ai ← ablationAutoIndexCopy a.auto_index
  Except.ok (mkAblation a.times a.power a.impedance a.temperature (some fc) (some ai))

/-! ## Concrete fixtures

`trianglesMesh` realises the TRIANGLES fixture described by the spec
(section 8) and the test-suite: a unit square triangulated as a fan around
its centre (point 0), plus a disjoint right isosceles triangle with legs 1. -/

/-- The TRIANGLES fixture: square fan (points 0-4) plus triangle (5-7). -/
def trianglesMesh : Mesh :=
  { points := [(1/2, 1/2, 0), (0, 0, 0), (1, 0, 0), (1, 1, 0), (0, 1, 0),
               (2, 0, 0), (3, 0, 0), (2, 1, 0)]
    cells := [(0, 1, 2), (0, 2, 3), (0, 3, 4), (0, 4, 1), (5, 6, 7)] }

/-- Small witness mesh: four points, three cells. -/
def mesh3 : Mesh :=
  { points := [(0, 0, 0), (1, 0, 0), (0, 1, 0), (1, 1, 0)]
    cells := [(0, 1, 2), (1, 3, 2), (0, 2, 3)] }

/-- Witness cell field with a NaN entry. -/
def field3 : List (Option ℚ) := [some 1, none, some 3]

/-- Witness cell field without NaN entries. -/
def field3nn : List (Option ℚ) := [some 1, some 2, some 3]

/-- Witness region labelling for `mesh3`. -/
def region3 : List ℤ := [0, 0, 1]

/-- Witness data mesh without pre-seeded areas. -/
def dataMesh3 : DataMesh :=
  { mesh := mesh3, areaCellData := none, lowValueArea := none }

/-- Witness loops for boundary selection (three loops). -/
def loopsW : List (List Pt) := [[(0, 0, 0)], [(5, 0, 0)], [(1, 0, 0)]]

/-- Witness points of interest. -/
def poiW : List Pt := [(0, 0, 0)]

/-- Witness single-loop list. -/
def loops1W : List (List Pt) := [[(2, 0, 0)]]

/-- Witness extractor point array. -/
def bptsW : List Pt := [(9, 9, 9)]

/-! ## Geometry lemmas -/

/-- Distance between embedded rational points agrees with `ptDist`. -/
theorem ptDist_eq_dist (p q : Pt) : ptDist p q = dist (toE p) (toE q) := by
  rw [EuclideanSpace.dist_eq, ptDist]
  congr 1
  simp only [toE, WithLp.equiv_symm_pi_apply, Fin.sum_univ_three,
    Matrix.cons_val_zero, Matrix.cons_val_one, Matrix.head_cons,
    Matrix.cons_val_two, Matrix.tail_cons, Real.dist_eq, sq_abs, sqDistQ]
  push_cast
  ring

/-- Triangle inequality for `ptDist`. -/
theorem ptDist_triangle (p q r : Pt) : ptDist p r ≤ ptDist p q + ptDist q r := by
  rw [ptDist_eq_dist, ptDist_eq_dist, ptDist_eq_dist]
  exact dist_triangle _ _ _

/-- Nonnegativity of `ptDist`. -/
theorem ptDist_nonneg (p q : Pt) : 0 ≤ ptDist p q :=
  Real.sqrt_nonneg _

/-- A point is at distance zero from itself. -/
theorem ptDist_self (p : Pt) : ptDist p p = 0 := by
  rw [ptDist_eq_dist]
  exact dist_self _

/-! ## Reachability saturation: soundness and completeness -/

theorem subset_stepF (E : List (ℕ × ℕ)) (S : Finset ℕ) : S ⊆ stepF E S :=
  Finset.subset_union_left

theorem iterF_succ (E : List (ℕ × ℕ)) (s n : ℕ) :
    iterF E s (n + 1) = stepF E (iterF E s n) :=
  Function.iterate_succ_apply' (stepF E) n {s}

theorem iterF_subset_succ (E : List (ℕ × ℕ)) (s n : ℕ) :
    iterF E s n ⊆ iterF E s (n + 1) := by
  rw [iterF_succ]
  exact subset_stepF E _

theorem self_mem_iterF (E : List (ℕ × ℕ)) (s n : ℕ) : s ∈ iterF E s n := by
  induction n with
  | zero => exact Finset.mem_singleton_self s
  | succ n ih => exact iterF_subset_succ E s n ih

theorem adj_mem_vertsF {E : List (ℕ × ℕ)} {u v : ℕ} (h : Adj E u v) :
    v ∈ vertsF E := by
  rcases h with h | h
  · have : v ∈ E.map Prod.snd := List.mem_map_of_mem Prod.snd h
    simp only [vertsF, List.mem_toFinset, List.mem_append]
    exact Or.inr this
  · have : v ∈ E.map Prod.fst := List.mem_map_of_mem Prod.fst h
    simp only [vertsF, List.mem_toFinset, List.mem_append]
    exact Or.inl this

theorem iterF_subset_uniF (E : List (ℕ × ℕ)) (s n : ℕ) :
    iterF E s n ⊆ uniF E s := by
  induction n with
  | zero =>
    intro v hv
    rw [iterF] at hv
    simp only [Function.iterate_zero, id_eq, Finset.mem_singleton] at hv
    subst hv
    exact Finset.mem_insert_self v _
  | succ n ih =>
    rw [iterF_succ]
    intro v hv
    rcases Finset.mem_union.mp hv with hv | hv
    · exact ih hv
    · exact Finset.mem_insert_of_mem (Finset.mem_of_mem_filter v hv)

theorem iterF_sound {E : List (ℕ × ℕ)} {s : ℕ} {n : ℕ} {v : ℕ}
    (hv : v ∈ iterF E s n) : Reach E s v := by
  induction n generalizing v with
  | zero =>
    rw [iterF] at hv
    simp only [Function.iterate_zero, id_eq, Finset.mem_singleton] at hv
    subst hv
    exact Relation.ReflTransGen.refl
  | succ n ih =>
    rw [iterF_succ] at hv
    rcases Finset.mem_union.mp hv with hv | hv
    · exact ih hv
    · obtain ⟨-, u, hu, hadj⟩ := Finset.mem_filter.mp hv
      exact Relation.ReflTransGen.tail (ih hu) hadj

theorem card_le_of_no_fix {E : List (ℕ × ℕ)} {s : ℕ} {n : ℕ}
    (h : ∀ m ≤ n, stepF E (iterF E s m) ≠ iterF E s m) :
    n + 1 ≤ (iterF E s n).card := by
  induction n with
  | zero =>
    rw [iterF]
    simp
  | succ n ih =>
    have hn : n + 1 ≤ (iterF E s n).card := ih (fun m hm => h m (Nat.le_succ_of_le hm))
    have hss : iterF E s n ⊂ iterF E s (n + 1) := by
      refine Finset.ssubset_iff_subset_ne.mpr ⟨iterF_subset_succ E s n, ?_⟩
      intro heq
      exact h n (Nat.le_succ n) (by rw [← iterF_succ, ← heq])
    have := Finset.card_lt_card hss
    omega

theorem exists_iterF_fix (E : List (ℕ × ℕ)) (s : ℕ) :
    ∃ m ≤ (uniF E s).card, stepF E (iterF E s m) = iterF E s m := by
  by_contra hcon
  push_neg at hcon
  have h1 := card_le_of_no_fix (n := (uniF E s).card) hcon
  have h2 := Finset.card_le_card (iterF_subset_uniF E s (uniF E s).card)
  omega

theorem reachSet_fix (E : List (ℕ × ℕ)) (s : ℕ) :
    stepF E (reachSet E s) = reachSet E s := by
  obtain ⟨m, hm, hfix⟩ := exists_iterF_fix E s
  have hiter : reachSet E s = iterF E s m := by
    rw [reachSet, show (uniF E s).card = ((uniF E s).card - m) + m by omega]
    show (stepF E)^[(uniF E s).card - m + m] {s} = iterF E s m
    rw [Function.iterate_add_apply]
    exact Function.iterate_fixed hfix _
  rw [hiter]
  exact hfix

theorem self_mem_reachSet (E : List (ℕ × ℕ)) (s : ℕ) : s ∈ reachSet E s :=
  self_mem_iterF E s _

theorem reachSet_closed {E : List (ℕ × ℕ)} {s v w : ℕ}
    (hv : v ∈ reachSet E s) (hadj : Adj E v w) : w ∈ reachSet E s := by
  have hw : w ∈ vertsF E := adj_mem_vertsF hadj
  have : w ∈ stepF E (reachSet E s) := by
    refine Finset.mem_union.mpr (Or.inr ?_)
    exact Finset.mem_filter.mpr ⟨hw, v, hv, hadj⟩
  rwa [reachSet_fix] at this

/-- Correctness of the reachability saturation: membership in the computed
set coincides with graph reachability. -/
theorem mem_reachSet_iff (E : List (ℕ × ℕ)) (s v : ℕ) :
    v ∈ reachSet E s ↔ Reach E s v := by
  constructor
  · exact iterF_sound
  · intro h
    induction h with
    | refl => exact self_mem_reachSet E s
    | tail _ hadj ih => exact reachSet_closed ih hadj

theorem adj_symm {E : List (ℕ × ℕ)} {u v : ℕ} (h : Adj E u v) : Adj E v u :=
  h.symm

theorem reach_symm {E : List (ℕ × ℕ)} {u v : ℕ} (h : Reach E u v) : Reach E v u :=
  Relation.ReflTransGen.symmetric (fun _ _ hadj => adj_symm hadj) h

/-! ## Distance/path engine: claim theorems -/

/-- C1 counterexample: as stated, the claim is false on the code.  With the
out-of-set metric "manhattan" the query does fail, but the error message
does not name "euclidean" (the implementation spells it "euclidian"), and
the string "euclidean" itself is rejected rather than accepted. -/
theorem calculate_vertex_distance_metric_message_cex :
    calculate_vertex_distance trianglesMesh 0 1 "manhattan"
      = Except.error (PyError.valueError "metric must be on of: geodesic, euclidian") ∧
    ¬ ("euclidean".toList <:+: "metric must be on of: geodesic, euclidian".toList) ∧
    calculate_vertex_distance trianglesMesh 0 1 "euclidean"
      = Except.error (PyError.valueError "metric must be on of: geodesic, euclidian") := by
  refine ⟨rfl, by decide, rfl⟩

/-- C1 (amended): any metric other than "geodesic" and "euclidian" fails
with the InvalidArgumentError (ValueError) whose message names the allowed
set with the source's spelling: geodesic, euclidian. -/
theorem calculate_vertex_distance_invalid_metric (m : Mesh) (s e : ℕ)
    (metric : String) (h1 : metric ≠ "geodesic") (h2 : metric ≠ "euclidian") :
    calculate_vertex_distance m s e metric
      = Except.error (PyError.valueError "metric must be on of: geodesic, euclidian") ∧
    ("geodesic".toList <:+: "metric must be on of: geodesic, euclidian".toList) ∧
    ("euclidian".toList <:+: "metric must be on of: geodesic, euclidian".toList) := by
  unfold calculate_vertex_distance
  rw [if_neg h1, if_neg h2]
  exact ⟨rfl, by decide, by decide⟩

/-- C1 witness: the test's metric "Manhattan" is rejected with the pinned
message. -/
theorem calculate_vertex_distance_invalid_metric_witness :
    calculate_vertex_distance trianglesMesh 18 23 "Manhattan"
      = Except.error (PyError.valueError "metric must be on of: geodesic, euclidian") ∧
    ("geodesic".toList <:+: "metric must be on of: geodesic, euclidian".toList) ∧
    ("euclidian".toList <:+: "metric must be on of: geodesic, euclidian".toList) :=
  calculate_vertex_distance_invalid_metric trianglesMesh 18 23 "Manhattan"
    (by decide) (by decide)

/-- C2: for vertices in distinct connected components the geodesic distance
query returns NaN (wrapped in a successful result, not an error) and the
path query returns the empty sequence; a one-vertex query by contrast
returns the one-point path, so absence of a path is structurally
distinguishable from a zero-length path. -/
theorem vertex_distance_path_disconnected (m : Mesh) (s e : ℕ)
    (hdis : ¬ Reach (edgeList m) s e) :
    calculate_vertex_distance m s e "geodesic" = Except.ok DistResult.nan ∧
    calculate_vertex_path m s e = [] ∧
    calculate_vertex_path m e e = [e] := by
  have hmem : e ∉ reachSet (edgeList m) s :=
    fun h => hdis ((mem_reachSet_iff _ _ _).mp h)
  refine ⟨?_, ?_, ?_⟩
  · unfold calculate_vertex_distance geodesicDistance
    rw [if_pos rfl, if_neg hmem]
  · unfold calculate_vertex_path
    simp only [if_neg hmem]
  · unfold calculate_vertex_path
    rw [if_pos (self_mem_reachSet _ _)]
    simp [dfsPath]

/-- C2 witness: the test's vertex pair 0 and 5 of the TRIANGLES fixture lies
in distinct components. -/
theorem vertex_distance_path_disconnected_witness :
    calculate_vertex_distance trianglesMesh 0 5 "geodesic" = Except.ok DistResult.nan ∧
    calculate_vertex_path trianglesMesh 0 5 = [] ∧
    calculate_vertex_path trianglesMesh 5 5 = [5] :=
  vertex_distance_path_disconnected trianglesMesh 0 5
    (fun h => absurd ((mem_reachSet_iff (edgeList trianglesMesh) 0 5).mpr h) (by decide))

theorem pathLen_single (m : Mesh) (a : ℕ) : pathLen m [a] = 0 := by
  simp [pathLen]

theorem pathLen_cons (m : Mesh) (a b : ℕ) (t : List ℕ) :
    pathLen m (a :: b :: t) = ptDist (meshPt m a) (meshPt m b) + pathLen m (b :: t) := by
  simp [pathLen]

/-- Any vertex sequence from `s` to `e` has total length at least the
straight-line distance (chained triangle inequality). -/
theorem pathLen_ge (m : Mesh) (l : List ℕ) (s e : ℕ)
    (hh : l.head? = some s) (hl : l.getLast? = some e) :
    ptDist (meshPt m s) (meshPt m e) ≤ pathLen m l := by
  induction l generalizing s with
  | nil => cases hh
  | cons a t ih =>
    cases t with
    | nil =>
      simp only [List.head?_cons, Option.some.injEq] at hh
      simp only [List.getLast?_singleton, Option.some.injEq] at hl
      subst hh
      subst hl
      rw [ptDist_self, pathLen_single]
    | cons b t' =>
      simp only [List.head?_cons, Option.some.injEq] at hh
      subst hh
      have hl' : (b :: t').getLast? = some e := by
        simpa using hl
      have hb : ptDist (meshPt m b) (meshPt m e) ≤ pathLen m (b :: t') :=
        ih b rfl hl'
      calc ptDist (meshPt m a) (meshPt m e)
          ≤ ptDist (meshPt m a) (meshPt m b) + ptDist (meshPt m b) (meshPt m e) :=
            ptDist_triangle _ _ _
        _ ≤ ptDist (meshPt m a) (meshPt m b) + pathLen m (b :: t') := by linarith
        _ = pathLen m (a :: b :: t') := (pathLen_cons m a b t').symm

/-- Reachability yields a concrete edge walk. -/
theorem reach_exists_path (E : List (ℕ × ℕ)) (s e : ℕ) (h : Reach E s e) :
    ∃ l, VertexPath E s e l := by
  induction h with
  | refl => exact ⟨[s], by simp [VertexPath]⟩
  | @tail b c hbc hadj ih =>
    obtain ⟨l, h1, h2, h3⟩ := ih
    cases l with
    | nil => cases h1
    | cons x xs =>
      refine ⟨(x :: xs) ++ [c], ?_, ?_, ?_⟩
      · simpa using h1
      · exact List.getLast?_concat _
      · refine List.Chain'.append h3 (List.chain'_singleton _) ?_
        intro y hy z hz
        simp only [List.head?_cons, Option.mem_def, Option.some.injEq] at hz
        rw [h2] at hy
        simp only [Option.mem_def, Option.some.injEq] at hy
        subst hy
        subst hz
        exact hadj

/-- C8: for connected vertex pairs, the geodesic query returns a value that
is at least the Euclidean distance between the two vertices, which is
exactly what the euclidian query returns. -/
theorem geodesic_ge_euclidean (m : Mesh) (s e : ℕ)
    (hconn : Reach (edgeList m) s e) :
    ∃ d : ℝ, calculate_vertex_distance m s e "geodesic" = Except.ok (DistResult.val d) ∧
      ptDist (meshPt m s) (meshPt m e) ≤ d ∧
      calculate_vertex_distance m s e "euclidian"
        = Except.ok (DistResult.val (ptDist (meshPt m s) (meshPt m e))) := by
  have hmem : e ∈ reachSet (edgeList m) s := (mem_reachSet_iff _ _ _).mpr hconn
  refine ⟨sInf (geoSet m s e), ?_, ?_, ?_⟩
  · unfold calculate_vertex_distance geodesicDistance
    rw [if_pos rfl, if_pos hmem]
  · obtain ⟨l, hl⟩ := reach_exists_path _ _ _ hconn
    refine le_csInf ⟨pathLen m l, l, hl, rfl⟩ ?_
    rintro b ⟨l', hl', rfl⟩
    exact pathLen_ge m l' s e hl'.1 hl'.2.1
  · rfl

/-- C8 witness: vertices 1 and 3 of the TRIANGLES fixture are connected. -/
theorem geodesic_ge_euclidean_witness :
    ∃ d : ℝ, calculate_vertex_distance trianglesMesh 1 3 "geodesic"
        = Except.ok (DistResult.val d) ∧
      ptDist (meshPt trianglesMesh 1) (meshPt trianglesMesh 3) ≤ d ∧
      calculate_vertex_distance trianglesMesh 1 3 "euclidian"
        = Except.ok (DistResult.val (ptDist (meshPt trianglesMesh 1) (meshPt trianglesMesh 3))) :=
  geodesic_ge_euclidean trianglesMesh 1 3
    ((mem_reachSet_iff (edgeList trianglesMesh) 1 3).mp (by decide))

/-! ## Free boundary extractor: cache behaviour and component structure -/

/-- C6: the sub-mesh cache is absent on a fresh extractor; calling
`calculate_areas` twice returns identical values, the first call populates
the cache, and the second call leaves the state untouched (the cache is
reused, not rebuilt). -/
theorem calculate_areas_idempotent (m : Mesh) (fb : FreeBoundary) :
    (get_free_boundaries m).boundary_meshes = none ∧
    (fb.calculate_areas.2).boundary_meshes ≠ none ∧
    (fb.calculate_areas.2).calculate_areas.1 = fb.calculate_areas.1 ∧
    (fb.calculate_areas.2).calculate_areas.2 = fb.calculate_areas.2 := by
  refine ⟨rfl, ?_, ?_, ?_⟩ <;>
    cases hfb : fb.boundary_meshes <;>
      simp [FreeBoundary.calculate_areas, hfb]

theorem componentsAux_sub (E : List (ℕ × ℕ)) (fuel : ℕ) (pool : List ℕ) :
    ∀ g ∈ componentsAux E fuel pool, ∀ x ∈ g, x ∈ pool := by
  induction fuel generalizing pool with
  | zero => simp [componentsAux]
  | succ fuel ih =>
    cases pool with
    | nil => simp [componentsAux]
    | cons v rest =>
      intro g hg x hx
      rw [componentsAux] at hg
      rcases List.mem_cons.mp hg with hg | hg
      · subst hg
        exact List.mem_of_mem_filter hx
      · have := ih _ g hg x hx
        exact List.mem_cons_of_mem v (List.mem_of_mem_filter this)

theorem componentsAux_nonempty (E : List (ℕ × ℕ)) (fuel : ℕ) (pool : List ℕ) :
    ∀ g ∈ componentsAux E fuel pool, g ≠ [] := by
  induction fuel generalizing pool with
  | zero => simp [componentsAux]
  | succ fuel ih =>
    cases pool with
    | nil => simp [componentsAux]
    | cons v rest =>
      intro g hg
      rw [componentsAux] at hg
      rcases List.mem_cons.mp hg with hg | hg
      · subst hg
        have hv : v ∈ (v :: rest).filter (fun u => decide (u ∈ reachSet E v)) :=
          List.mem_filter.mpr ⟨List.mem_cons_self v rest, by
            simpa using self_mem_reachSet E v⟩
        exact List.ne_nil_of_mem hv
      · exact ih _ g hg

theorem componentsAux_reach (E : List (ℕ × ℕ)) (fuel : ℕ) (pool : List ℕ) :
    ∀ g ∈ componentsAux E fuel pool, ∀ x ∈ g, ∀ y ∈ g, Reach E x y := by
  induction fuel generalizing pool with
  | zero => simp [componentsAux]
  | succ fuel ih =>
    cases pool with
    | nil => simp [componentsAux]
    | cons v rest =>
      intro g hg x hx y hy
      rw [componentsAux] at hg
      rcases List.mem_cons.mp hg with hg | hg
      · subst hg
        have hxr : Reach E v x := by
          have := List.of_mem_filter hx
          exact iterF_sound (by simpa using this)
        have hyr : Reach E v y := by
          have := List.of_mem_filter hy
          exact iterF_sound (by simpa using this)
        exact Relation.ReflTransGen.trans (reach_symm hxr) hyr
      · exact ih _ g hg x hx y hy

theorem componentsAux_pairwise (E : List (ℕ × ℕ)) (fuel : ℕ) (pool : List ℕ) :
    (componentsAux E fuel pool).Pairwise
      (fun g g' => ∀ x ∈ g, ∀ y ∈ g', ¬ Reach E x y) := by
  induction fuel generalizing pool with
  | zero => simp [componentsAux]
  | succ fuel ih =>
    cases pool with
    | nil => simp [componentsAux]
    | cons v rest =>
      rw [componentsAux]
      refine List.Pairwise.cons ?_ (ih _)
      intro g' hg' x hx y hy hreach
      have hxr : Reach E v x := by
        have := List.of_mem_filter hx
        exact iterF_sound (by simpa using this)
      have hy' : y ∈ rest.filter (fun u => decide (u ∉ reachSet E v)) :=
        componentsAux_sub E fuel _ g' hg' y hy
      have hyn : y ∉ reachSet E v := by simpa using List.of_mem_filter hy'
      exact hyn ((mem_reachSet_iff E v y).mpr (Relation.ReflTransGen.trans hxr hreach))

theorem componentsAux_cover (E : List (ℕ × ℕ)) (fuel : ℕ) (pool : List ℕ)
    (hfuel : pool.length ≤ fuel) :
    ∀ x ∈ pool, ∃ g ∈ componentsAux E fuel pool, x ∈ g := by
  induction fuel generalizing pool with
  | zero =>
    cases pool with
    | nil => simp
    | cons v rest => simp at hfuel
  | succ fuel ih =>
    cases pool with
    | nil => simp
    | cons v rest =>
      intro x hx
      rw [componentsAux]
      by_cases hxv : x ∈ reachSet E v
      · exact ⟨_, List.mem_cons_self _ _,
          List.mem_filter.mpr ⟨hx, by simpa using hxv⟩⟩
      · have hxrest : x ∈ rest := by
          rcases List.mem_cons.mp hx with rfl | hxr
          · exact absurd (self_mem_reachSet E x) hxv
          · exact hxr
        have hxf : x ∈ rest.filter (fun u => decide (u ∉ reachSet E v)) :=
          List.mem_filter.mpr ⟨hxrest, by simpa using hxv⟩
        have hlen : (rest.filter (fun u => decide (u ∉ reachSet E v))).length ≤ fuel := by
          have h1 := List.length_filter_le (fun u => decide (u ∉ reachSet E v)) rest
          simp only [List.length_cons] at hfuel
          omega
        obtain ⟨g, hg, hxg⟩ := ih _ hlen x hxf
        exact ⟨g, List.mem_cons_of_mem _ hg, hxg⟩

theorem orderCycleAux_length (E : List (ℕ × ℕ)) (fuel : ℕ) :
    ∀ cur pool acc, (orderCycleAux E fuel cur pool acc).length
      = acc.length + pool.length := by
  induction fuel with
  | zero =>
    intro cur pool acc
    simp [orderCycleAux]
  | succ fuel ih =>
    intro cur pool acc
    rw [orderCycleAux]
    cases hm : (nbrList E cur).filter (fun n => decide (n ∈ pool)) with
    | nil => simp
    | cons n t =>
      have hn : n ∈ pool := by
        have : n ∈ (nbrList E cur).filter (fun n => decide (n ∈ pool)) := by
          rw [hm]; exact List.mem_cons_self n t
        simpa using List.of_mem_filter this
      have hpool : 0 < pool.length := List.length_pos_of_mem hn
      rw [ih]
      simp only [List.length_cons, List.length_erase_of_mem hn]
      omega

theorem orderCycle_length (E : List (ℕ × ℕ)) (comp : List ℕ) :
    (orderCycle E comp).length = comp.length := by
  cases comp with
  | nil => rfl
  | cons v rest =>
    rw [orderCycle, orderCycleAux_length]
    simp [Nat.add_comm]

theorem closePolyline_length (l : List ℕ) (hl : l ≠ []) :
    (closePolyline l).length = l.length + 1 := by
  cases l with
  | nil => exact absurd rfl hl
  | cons h t => simp [closePolyline]

theorem triArea_z0 (a b c : Pt) (ha : a.2.2 = 0) (hb : b.2.2 = 0) (hc : c.2.2 = 0) :
    triArea (a, b, c) =
      ((|(b.1 - a.1) * (c.2.1 - a.2.1) - (b.2.1 - a.2.1) * (c.1 - a.1)| : ℚ) : ℝ) / 2 := by
  have hn : normSqQ (crossPt (subPt b a) (subPt c a))
      = ((b.1 - a.1) * (c.2.1 - a.2.1) - (b.2.1 - a.2.1) * (c.1 - a.1)) ^ 2 := by
    simp only [normSqQ, crossPt, subPt, ha, hb, hc]
    ring
  show normR (crossPt (subPt b a) (subPt c a)) / 2 = _
  unfold normR
  rw [hn]
  push_cast
  rw [Real.sqrt_sq_eq_abs]

theorem ptDist_concrete (p q : Pt) (d : ℚ) (hd : 0 ≤ d) (h : sqDistQ p q = d ^ 2) :
    ptDist p q = (d : ℝ) := by
  unfold ptDist
  rw [h]
  push_cast
  exact Real.sqrt_sq (by exact_mod_cast hd)

/-- C3 counterexample: on the square-plus-triangle fixture the reported
point counts per boundary are [5, 4] (closed polylines repeat their first
point) while the boundary components have [4, 3] distinct vertices, so
`n_points_per_boundary` does not match the components' vertex counts. -/
theorem n_points_per_boundary_offset_cex :
    (get_free_boundaries trianglesMesh).n_points_per_boundary = [5, 4] ∧
    (boundaryComponents trianglesMesh).map List.length = [4, 3] ∧
    (get_free_boundaries trianglesMesh).n_points_per_boundary
      ≠ (boundaryComponents trianglesMesh).map List.length := by
  refine ⟨by decide, by decide, by decide⟩

/-- C3 (amended): the square-plus-triangle fixture has two free boundaries
with polyline point counts [5, 4], enclosed areas [1, 1/2] and perimeters
[4, 2+√2]; in general `n_boundaries` counts the connected components of the
boundary-edge graph (the groups are nonempty, internally connected,
pairwise disconnected, and cover every boundary vertex), and
`n_points_per_boundary` lists each component's vertex count plus one (the
closing point of the polyline). -/
theorem free_boundaries_spec (m : Mesh) :
    (get_free_boundaries trianglesMesh).n_boundaries = 2 ∧
    (get_free_boundaries trianglesMesh).n_points_per_boundary = [5, 4] ∧
    (get_free_boundaries trianglesMesh).calculate_areas.1 = [1, 1/2] ∧
    (get_free_boundaries trianglesMesh).calculate_lengths = [4, 2 + Real.sqrt 2] ∧
    (get_free_boundaries m).n_boundaries = (boundaryComponents m).length ∧
    (∀ g ∈ boundaryComponents m, g ≠ []) ∧
    (∀ g ∈ boundaryComponents m, ∀ x ∈ g, ∀ y ∈ g, Reach (boundaryEdges m) x y) ∧
    ((boundaryComponents m).Pairwise
      (fun g g' => ∀ x ∈ g, ∀ y ∈ g', ¬ Reach (boundaryEdges m) x y)) ∧
    (∀ x ∈ boundaryVertList m, ∃ g ∈ boundaryComponents m, x ∈ g) ∧
    (get_free_boundaries m).n_points_per_boundary
      = (boundaryComponents m).map (fun g => g.length + 1) := by
  have hpoly : boundaryPolylines trianglesMesh = [[1,2,3,4,1],[5,6,7,5]] := by decide
  refine ⟨by decide, by decide, ?_, ?_, ?_, ?_, ?_, ?_, ?_, ?_⟩
  · -- areas ≈ [1, 1/2]
    have h1 : (get_free_boundaries trianglesMesh).calculate_areas.1
        = (boundaryPolylines trianglesMesh).map
            (fun poly => subMeshArea (fanTriangles trianglesMesh.points poly)) := by
      simp [FreeBoundary.calculate_areas, get_free_boundaries, buildBoundaryMeshes]
    have hA1 : subMeshArea (fanTriangles trianglesMesh.points [1,2,3,4,1]) = 1 := by
      have hfan : fanTriangles trianglesMesh.points [1,2,3,4,1] =
          [((1/2,1/2,0), (0,0,0), (1,0,0)),
           ((1/2,1/2,0), (1,0,0), (1,1,0)),
           ((1/2,1/2,0), (1,1,0), (0,1,0)),
           ((1/2,1/2,0), (0,1,0), (0,0,0))] := by
        norm_num [fanTriangles, polyPoints, centroid, addPt, smulPt, trianglesMesh,
          Prod.ext_iff]
      rw [hfan]
      simp only [subMeshArea, List.map_cons, List.map_nil, List.sum_cons, List.sum_nil]
      rw [triArea_z0 _ _ _ rfl rfl rfl, triArea_z0 _ _ _ rfl rfl rfl,
        triArea_z0 _ _ _ rfl rfl rfl, triArea_z0 _ _ _ rfl rfl rfl]
      norm_num [abs_of_nonneg]
    have hA2 : subMeshArea (fanTriangles trianglesMesh.points [5,6,7,5]) = 1/2 := by
      have hfan : fanTriangles trianglesMesh.points [5,6,7,5] =
          [((7/3,1/3,0), (2,0,0), (3,0,0)),
           ((7/3,1/3,0), (3,0,0), (2,1,0)),
           ((7/3,1/3,0), (2,1,0), (2,0,0))] := by
        norm_num [fanTriangles, polyPoints, centroid, addPt, smulPt, trianglesMesh,
          Prod.ext_iff]
      rw [hfan]
      simp only [subMeshArea, List.map_cons, List.map_nil, List.sum_cons, List.sum_nil]
      rw [triArea_z0 _ _ _ rfl rfl rfl, triArea_z0 _ _ _ rfl rfl rfl,
        triArea_z0 _ _ _ rfl rfl rfl]
      norm_num [abs_of_nonneg]
    rw [h1, hpoly]
    simp only [List.map_cons, List.map_nil]
    rw [hA1, hA2]
  · -- perimeters ≈ [4, 2+√2]
    show (boundaryPolylines trianglesMesh).map _ = _
    rw [hpoly]
    have g1 : trianglesMesh.points.getD 1 (0,0,0) = (0,0,0) := rfl
    have g2 : trianglesMesh.points.getD 2 (0,0,0) = (1,0,0) := rfl
    have g3 : trianglesMesh.points.getD 3 (0,0,0) = (1,1,0) := rfl
    have g4 : trianglesMesh.points.getD 4 (0,0,0) = (0,1,0) := rfl
    have g5 : trianglesMesh.points.getD 5 (0,0,0) = (2,0,0) := rfl
    have g6 : trianglesMesh.points.getD 6 (0,0,0) = (3,0,0) := rfl
    have g7 : trianglesMesh.points.getD 7 (0,0,0) = (2,1,0) := rfl
    simp only [get_free_boundaries, List.map_cons, List.map_nil, List.tail_cons,
      List.zip_cons_cons, List.zip_nil_right, List.sum_cons, List.sum_nil,
      g1, g2, g3, g4, g5, g6, g7]
    rw [ptDist_concrete (0,0,0) (1,0,0) 1 (by norm_num) (by norm_num [sqDistQ]),
      ptDist_concrete (1,0,0) (1,1,0) 1 (by norm_num) (by norm_num [sqDistQ]),
      ptDist_concrete (1,1,0) (0,1,0) 1 (by norm_num) (by norm_num [sqDistQ]),
      ptDist_concrete (0,1,0) (0,0,0) 1 (by norm_num) (by norm_num [sqDistQ]),
      ptDist_concrete (2,0,0) (3,0,0) 1 (by norm_num) (by norm_num [sqDistQ]),
      ptDist_concrete (2,1,0) (2,0,0) 1 (by norm_num) (by norm_num [sqDistQ])]
    have hyp : ptDist (3,0,0) (2,1,0) = Real.sqrt 2 := by
      unfold ptDist
      norm_num [sqDistQ]
    rw [hyp]
    norm_num
    ring
  · simp [FreeBoundary.n_boundaries, get_free_boundaries, boundaryPolylines]
  · exact componentsAux_nonempty _ _ _
  · exact componentsAux_reach _ _ _
  · exact componentsAux_pairwise _ _ _
  · exact componentsAux_cover _ _ _ (le_refl _)
  · show (boundaryPolylines m).map List.length = _
    rw [boundaryPolylines, List.map_map]
    refine List.map_congr_left ?_
    intro g hg
    have hne : g ≠ [] := componentsAux_nonempty _ _ _ g hg
    have hlen : (orderCycle (boundaryEdges m) g).length = g.length :=
      orderCycle_length _ g
    have hone : orderCycle (boundaryEdges m) g ≠ [] := by
      intro he
      rw [he] at hlen
      exact hne (List.eq_nil_of_length_eq_zero hlen.symm)
    show (closePolyline (orderCycle (boundaryEdges m) g)).length = g.length + 1
    rw [closePolyline_length _ hone, hlen]

/-! ## Region aggregation: partition lemmas and claim theorems -/

theorem uniqueSorted_nodup (l : List ℤ) : (uniqueSorted l).Nodup :=
  ((List.perm_insertionSort _ _).nodup_iff).mpr l.nodup_dedup

theorem mem_uniqueSorted (l : List ℤ) (x : ℤ) : x ∈ uniqueSorted l ↔ x ∈ l := by
  rw [uniqueSorted, (List.perm_insertionSort _ _).mem_iff, List.mem_dedup]

theorem uniqueSorted_sorted_lt (l : List ℤ) : (uniqueSorted l).Sorted (· < ·) :=
  (List.sorted_insertionSort _ _).lt_of_le (uniqueSorted_nodup l)

theorem sum_map_filter_split {M : Type} [AddCommMonoid M]
    (pairs : List (ℤ × M)) (p : ℤ × M → Bool) :
    ((pairs.filter p).map Prod.snd).sum
        + ((pairs.filter (fun x => ! p x)).map Prod.snd).sum
      = (pairs.map Prod.snd).sum := by
  induction pairs with
  | nil => simp
  | cons a t ih =>
    by_cases hp : p a
    · rw [List.filter_cons, List.filter_cons, if_pos hp, if_neg (by simp [hp])]
      simp only [List.map_cons, List.sum_cons]
      rw [add_assoc, ih]
    · rw [List.filter_cons, List.filter_cons, if_neg hp, if_pos (by simp [hp])]
      simp only [List.map_cons, List.sum_cons]
      rw [add_left_comm, ih]

/-- Summing a quantity per label over the distinct labels recovers the
total sum, provided every pair's label occurs among the given labels. -/
theorem partition_sum {M : Type} [AddCommMonoid M] (u : List ℤ) (hu : u.Nodup)
    (pairs : List (ℤ × M)) (hcov : ∀ p ∈ pairs, p.1 ∈ u) :
    (u.map (fun r =>
        ((pairs.filter (fun p => decide (p.1 = r))).map Prod.snd).sum)).sum
      = (pairs.map Prod.snd).sum := by
  induction u generalizing pairs with
  | nil =>
    cases pairs with
    | nil => simp
    | cons a t => exact absurd (hcov a (List.mem_cons_self a t)) (List.not_mem_nil _)
  | cons r rest ih =>
    have hnr : r ∉ rest := (List.nodup_cons.mp hu).1
    have hrest : rest.Nodup := (List.nodup_cons.mp hu).2
    simp only [List.map_cons, List.sum_cons]
    have hsw : ∀ r' ∈ rest,
        (fun r' => ((pairs.filter (fun p => decide (p.1 = r'))).map Prod.snd).sum) r'
          = (fun r' => (((pairs.filter (fun x => ! decide (x.1 = r))).filter
              (fun p => decide (p.1 = r'))).map Prod.snd).sum) r' := by
      intro r' hr'
      simp only
      rw [List.filter_filter]
      have hfeq : pairs.filter (fun p => decide (p.1 = r'))
          = pairs.filter (fun a => decide (a.1 = r') && ! decide (a.1 = r)) := by
        refine List.filter_congr ?_
        intro p _
        have hne : r' ≠ r := fun hh => hnr (hh ▸ hr')
        by_cases h : p.1 = r'
        · simp [h, hne]
        · simp [h]
      rw [hfeq]
    rw [List.map_congr_left hsw, ih hrest]
    · exact sum_map_filter_split pairs (fun p => decide (p.1 = r))
    · intro p hp
      have hmem := List.mem_of_mem_filter hp
      have hne : ¬ p.1 = r := by simpa using List.of_mem_filter hp
      rcases List.mem_cons.mp (hcov p hmem) with h | h
      · exact absurd h hne
      · exact h

/-- C4: `low_field_area_per_region` returns one value per unique region
label, and the "low_value_area" aggregate written onto the mesh equals the
sum of the per-region values — for any pre-seeded or fresh per-cell area
and for point- as well as cell-indexed fields. -/
theorem low_field_area_per_region_spec (dm : DataMesh) (f : List (Option ℚ))
    (cell_region : List ℤ) (threshold : ℚ)
    (hreg : cell_region.length = dm.mesh.cells.length)
    (hcf : (materializeCellField dm.mesh f).length = dm.mesh.cells.length)
    (harea : ∀ A ∈ dm.areaCellData, A.length = dm.mesh.cells.length) :
    (low_field_area_per_region dm f cell_region threshold).1.length
        = (uniqueSorted cell_region).length ∧
    (low_field_area_per_region dm f cell_region threshold).2.lowValueArea
        = some (low_field_area_per_region dm f cell_region threshold).1.sum := by
  constructor
  · simp [low_field_area_per_region]
  · have hmlen : (maskedAreas dm (materializeCellField dm.mesh f) threshold).length
        = dm.mesh.cells.length := by
      rw [maskedAreas, List.length_map, List.length_zip, hcf]
      cases hA : dm.areaCellData with
      | none => simp [cellAreas]
      | some A => simp [harea A (by rw [hA]; rfl)]
    have htot : (maskedAreas dm (materializeCellField dm.mesh f) threshold)
        = ((cell_region.zip (maskedAreas dm (materializeCellField dm.mesh f) threshold)).map
            Prod.snd) := by
      rw [List.map_snd_zip]
      rw [hmlen, hreg]
    show some _ = some _
    congr 1
    rw [low_field_area_per_region]
    simp only
    conv => left; rw [htot]
    refine (partition_sum _ (uniqueSorted_nodup cell_region) _ ?_).symm
    intro p hp
    exact (mem_uniqueSorted cell_region p.1).mpr (List.of_mem_zip hp).1

/-- C4 witness: concrete mesh, cell-indexed field, no pre-seeded area. -/
theorem low_field_area_per_region_spec_witness :
    (low_field_area_per_region dataMesh3 field3nn region3 2).1.length
        = (uniqueSorted region3).length ∧
    (low_field_area_per_region dataMesh3 field3nn region3 2).2.lowValueArea
        = some (low_field_area_per_region dataMesh3 field3nn region3 2).1.sum :=
  low_field_area_per_region_spec dataMesh3 field3nn region3 2
    (by decide) (by decide) (by simp [dataMesh3])

theorem filterSome_map_some (xs : List ℚ) : filterSome (xs.map some) = xs := by
  induction xs with
  | nil => rfl
  | cons a t ih => simpa [filterSome] using ih

theorem all_some_eq_map (l : List (Option ℚ)) (h : ∀ v ∈ l, v ≠ none) :
    l = (filterSome l).map some := by
  induction l with
  | nil => rfl
  | cons a t ih =>
    cases a with
    | none => exact absurd rfl (h none (List.mem_cons_self _ _))
    | some x =>
      have ht := ih (fun v hv => h v (List.mem_cons_of_mem _ hv))
      simp only [filterSome, List.filterMap_cons, id_eq, List.map_cons]
      exact congrArg _ ht

theorem filterSome_length (l : List (Option ℚ)) (h : ∀ v ∈ l, v ≠ none) :
    (filterSome l).length = l.length := by
  conv => right; rw [all_some_eq_map l h]
  rw [List.length_map]

theorem zip_filter_length {α : Type} (r : ℤ) :
    ∀ (ls : List ℤ) (xs : List α), ls.length = xs.length →
      ((ls.zip xs).filter (fun p => decide (p.1 = r))).length
        = (ls.filter (fun x => decide (x = r))).length := by
  intro ls
  induction ls with
  | nil => intro xs h; simp
  | cons a t ih =>
    intro xs h
    cases xs with
    | nil => simp at h
    | cons b u =>
      simp only [List.length_cons, Nat.succ.injEq] at h
      rw [List.zip_cons_cons, List.filter_cons, List.filter_cons]
      by_cases ha : a = r
      · rw [if_pos (by simp [ha]), if_pos (by simp [ha])]
        simp only [List.length_cons]
        rw [ih u h]
      · rw [if_neg (by simp [ha]), if_neg (by simp [ha])]
        exact ih u h

theorem sum_ones (l : List ℤ) : (l.map (fun _ => (1 : ℕ))).sum = l.length := by
  induction l with
  | nil => rfl
  | cons a t ih => simp [ih, Nat.add_comm]

/-- Region cell counts sum to the number of cells. -/
theorem regionCounts_sum (region : List ℤ) :
    (regionCounts region).sum = region.length := by
  have key := partition_sum (M := ℕ) (uniqueSorted region)
    (uniqueSorted_nodup region) (region.map (fun x => (x, 1)))
    (by
      intro p hp
      obtain ⟨x, hx, rfl⟩ := List.mem_map.mp hp
      exact (mem_uniqueSorted region x).mpr hx)
  rw [regionCounts]
  have h2 : ∀ r ∈ uniqueSorted region,
      (fun r => (region.filter (fun x => decide (x = r))).length) r
        = (fun r => (((region.map (fun x => (x, (1:ℕ)))).filter
            (fun p => decide (p.1 = r))).map Prod.snd).sum) r := by
    intro r _
    simp only
    rw [List.filter_map]
    have hcomp : ((fun p => decide (p.1 = r)) ∘ (fun x => (x, (1:ℕ))))
        = (fun x => decide (x = r)) := rfl
    rw [hcomp, List.map_map]
    have hsnd : (Prod.snd ∘ fun x : ℤ => (x, (1:ℕ))) = (fun _ : ℤ => (1:ℕ)) := rfl
    rw [hsnd, sum_ones]
  rw [List.map_congr_left h2, key, List.map_map]
  have hsnd : (Prod.snd ∘ fun x : ℤ => (x, (1:ℕ))) = (fun _ : ℤ => (1:ℕ)) := rfl
  rw [hsnd, sum_ones]

theorem regionValues_mem_cf (cf : List (Option ℚ)) (region : List ℤ) (r : ℤ) :
    ∀ v ∈ regionValues cf region r, v ∈ cf := by
  intro v hv
  obtain ⟨p, hp, rfl⟩ := List.mem_map.mp hv
  exact (List.of_mem_zip (List.mem_of_mem_filter hp)).2

theorem regionValues_ne_nil (cf : List (Option ℚ)) (region : List ℤ) (r : ℤ)
    (hlen : region.length = cf.length) (hr : r ∈ region) :
    regionValues cf region r ≠ [] := by
  obtain ⟨⟨i, hi⟩, hget⟩ := List.mem_iff_get.mp hr
  have hic : i < cf.length := by omega
  have hiz : i < (region.zip cf).length := by
    rw [List.length_zip]
    omega
  have hpair : (region.zip cf).get ⟨i, hiz⟩ = (region.get ⟨i, hi⟩, cf.get ⟨i, hic⟩) := by
    simp [List.get_eq_getElem, List.getElem_zip]
  have hmem : (region.get ⟨i, hi⟩, cf.get ⟨i, hic⟩) ∈ region.zip cf := by
    rw [← hpair]
    exact List.get_mem _ _ _
  have hfil : (region.get ⟨i, hi⟩, cf.get ⟨i, hic⟩)
      ∈ (region.zip cf).filter (fun p => decide (p.1 = r)) :=
    List.mem_filter.mpr ⟨hmem, by simpa using hget⟩
  intro hcon
  rw [regionValues] at hcon
  rw [List.map_eq_nil_iff] at hcon
  rw [hcon] at hfil
  exact List.not_mem_nil _ hfil

theorem filterSome_regionValues (cfQ : List ℚ) (region : List ℤ) (r : ℤ) :
    filterSome (regionValues (cfQ.map some) region r)
      = ((region.zip cfQ).filter (fun p => decide (p.1 = r))).map Prod.snd := by
  rw [regionValues, List.zip_map_right, List.filter_map]
  have hcomp : ((fun p : ℤ × Option ℚ => decide (p.1 = r)) ∘ Prod.map id some)
      = (fun p : ℤ × ℚ => decide (p.1 = r)) := rfl
  rw [hcomp, List.map_map]
  have hsnd : (Prod.snd ∘ Prod.map (@id ℤ) (some : ℚ → Option ℚ))
      = ((some : ℚ → Option ℚ) ∘ Prod.snd) := rfl
  rw [hsnd, ← List.map_map, filterSome_map_some]

theorem cast_sum_nat (l : List ℕ) : ((l.sum : ℕ) : ℚ) = (l.map (Nat.cast : ℕ → ℚ)).sum := by
  induction l with
  | nil => simp
  | cons a t ih =>
    rw [List.map_cons, List.sum_cons, List.sum_cons, Nat.cast_add, ih]

/-- C5 (amended): `mean_field_per_region` returns one value per unique
region label in strictly ascending order; each region's mean excludes NaN
entries from both numerator and denominator; a point field and the
equivalent cell field give identical results; and — provided the
materialised cell field contains no missing values and the labelling is
nonempty — the cell-counts-weighted average of the per-region means equals
the whole-mesh mean of the per-cell field. -/
theorem mean_field_per_region_spec (m : Mesh) (f : List (Option ℚ))
    (cell_region : List ℤ)
    (hreg : cell_region.length = m.cells.length)
    (hcf : (materializeCellField m f).length = m.cells.length)
    (hnn : ∀ v ∈ materializeCellField m f, v ≠ none)
    (hne : cell_region ≠ []) :
    (mean_field_per_region m f cell_region).length
        = (uniqueSorted cell_region).length ∧
    (uniqueSorted cell_region).Sorted (· < ·) ∧
    (∀ x : ℤ, x ∈ uniqueSorted cell_region ↔ x ∈ cell_region) ∧
    (∀ r ∈ uniqueSorted cell_region,
      nanmeanQ (regionValues (materializeCellField m f) cell_region r)
        = some ((filterSome (regionValues (materializeCellField m f) cell_region r)).sum
            / ((filterSome (regionValues (materializeCellField m f) cell_region r)).length : ℚ))) ∧
    some (npAverage (filterSome (mean_field_per_region m f cell_region))
        (regionCounts cell_region))
      = nanmeanQ (materializeCellField m f) ∧
    (f.length = m.points.length → m.points.length ≠ m.cells.length →
      mean_field_per_region m f cell_region
        = mean_field_per_region m (materializeCellField m f) cell_region) := by
  have hlen2 : cell_region.length = (materializeCellField m f).length := by
    rw [hreg, hcf]
  have hcfQlen : (filterSome (materializeCellField m f)).length
      = (materializeCellField m f).length := filterSome_length _ hnn
  have hcfmap : materializeCellField m f
      = (filterSome (materializeCellField m f)).map some := all_some_eq_map _ hnn
  have hlenQ : cell_region.length = (filterSome (materializeCellField m f)).length := by
    rw [hlen2, hcfQlen]
  -- per-label facts
  have hfs_len : ∀ r ∈ uniqueSorted cell_region,
      (filterSome (regionValues (materializeCellField m f) cell_region r)).length
        = (cell_region.filter (fun x => decide (x = r))).length := by
    intro r _
    conv => left; rw [hcfmap]
    rw [filterSome_regionValues, List.length_map]
    exact zip_filter_length r cell_region _ hlenQ
  have hcnt_pos : ∀ r ∈ uniqueSorted cell_region,
      (cell_region.filter (fun x => decide (x = r))).length ≠ 0 := by
    intro r hr
    have hrmem : r ∈ cell_region := (mem_uniqueSorted _ _).mp hr
    have : r ∈ cell_region.filter (fun x => decide (x = r)) :=
      List.mem_filter.mpr ⟨hrmem, by simp⟩
    have := List.length_pos_of_mem this
    omega
  have hnm : ∀ r ∈ uniqueSorted cell_region,
      nanmeanQ (regionValues (materializeCellField m f) cell_region r)
        = some ((filterSome (regionValues (materializeCellField m f) cell_region r)).sum
            / ((cell_region.filter (fun x => decide (x = r))).length : ℚ)) := by
    intro r hr
    rw [nanmeanQ, if_neg (by rw [hfs_len r hr]; exact hcnt_pos r hr), hfs_len r hr]
  refine ⟨by simp [mean_field_per_region], uniqueSorted_sorted_lt _,
    fun x => mem_uniqueSorted _ x, ?_, ?_, ?_⟩
  · intro r hr
    rw [hnm r hr, hfs_len r hr]
  · -- the weighted-average identity
    have hmeans : mean_field_per_region m f cell_region
        = ((uniqueSorted cell_region).map (fun r =>
            (filterSome (regionValues (materializeCellField m f) cell_region r)).sum
              / ((cell_region.filter (fun x => decide (x = r))).length : ℚ))).map some := by
      rw [mean_field_per_region, List.map_map]
      exact List.map_congr_left hnm
    rw [hmeans, filterSome_map_some]
    have hcounts : regionCounts cell_region
        = (uniqueSorted cell_region).map
            (fun r => (cell_region.filter (fun x => decide (x = r))).length) := rfl
    rw [hcounts, npAverage, List.zip_map', List.map_map, List.map_map]
    have hnum : ((uniqueSorted cell_region).map
        ((fun p : ℚ × ℕ => p.1 * (p.2 : ℚ)) ∘ (fun r =>
          ((filterSome (regionValues (materializeCellField m f) cell_region r)).sum
              / ((cell_region.filter (fun x => decide (x = r))).length : ℚ),
            (cell_region.filter (fun x => decide (x = r))).length)))).sum
        = (filterSome (materializeCellField m f)).sum := by
      have hstep : ∀ r ∈ uniqueSorted cell_region,
          ((fun p : ℚ × ℕ => p.1 * (p.2 : ℚ)) ∘ (fun r =>
            ((filterSome (regionValues (materializeCellField m f) cell_region r)).sum
                / ((cell_region.filter (fun x => decide (x = r))).length : ℚ),
              (cell_region.filter (fun x => decide (x = r))).length))) r
          = (fun r => (((cell_region.zip (filterSome (materializeCellField m f))).filter
              (fun p => decide (p.1 = r))).map Prod.snd).sum) r := by
        intro r hr
        simp only [Function.comp_apply]
        rw [div_mul_cancel₀ _ (by exact_mod_cast hcnt_pos r hr)]
        conv => left; rw [hcfmap]
        rw [filterSome_regionValues]
      rw [List.map_congr_left hstep,
        partition_sum _ (uniqueSorted_nodup _) _
          (fun p hp => (mem_uniqueSorted _ _).mpr (List.of_mem_zip hp).1),
        List.map_snd_zip _ _ (by omega)]
    rw [hnum]
    have hden : ((uniqueSorted cell_region).map
        ((Nat.cast : ℕ → ℚ) ∘ (fun r =>
          (cell_region.filter (fun x => decide (x = r))).length))).sum
        = (cell_region.length : ℚ) := by
      rw [← List.map_map, ← cast_sum_nat]
      have : ((uniqueSorted cell_region).map (fun r =>
          (cell_region.filter (fun x => decide (x = r))).length)).sum
          = cell_region.length := regionCounts_sum cell_region
      rw [this]
    rw [hden, nanmeanQ,
      if_neg (by rw [hcfQlen, ← hlen2]; simpa using fun h => hne (List.eq_nil_of_length_eq_zero h)),
      hcfQlen, ← hlen2]
  · -- point- and cell-indexed fields give identical results
    intro hfp hne2
    have hfix : materializeCellField m (materializeCellField m f)
        = materializeCellField m f := by
      rw [materializeCellField, if_neg]
      rw [hcf]
      exact fun h => hne2 h.symm
    rw [mean_field_per_region, mean_field_per_region, hfix]

/-- C5 counterexample: with a NaN entry the claim as stated fails.  On a
three-cell mesh with regions [0, 0, 1] and cell field [1, NaN, 3] the
per-region means are [1, 3] with cell counts [2, 1]; their weighted
average is 5/3, while the whole-mesh NaN-excluding mean is 2. -/
theorem mean_field_per_region_nan_cex :
    mean_field_per_region mesh3 field3 region3
      = [nanmeanQ [some 1, none], nanmeanQ [some 3]] ∧
    nanmeanQ [some 1, (none : Option ℚ)] = some 1 ∧
    nanmeanQ [(some 3 : Option ℚ)] = some 3 ∧
    regionCounts region3 = [2, 1] ∧
    npAverage (filterSome (mean_field_per_region mesh3 field3 region3))
        (regionCounts region3) = 5/3 ∧
    nanmeanQ (materializeCellField mesh3 field3) = some 2 ∧
    (5/3 : ℚ) ≠ 2 := by
  have h1 : mean_field_per_region mesh3 field3 region3
      = [nanmeanQ [some 1, none], nanmeanQ [some 3]] := rfl
  have h2 : nanmeanQ [some 1, (none : Option ℚ)] = some 1 := by
    norm_num [nanmeanQ, filterSome, List.filterMap_cons, List.filterMap_nil, id_eq]
  have h3 : nanmeanQ [(some 3 : Option ℚ)] = some 3 := by
    norm_num [nanmeanQ, filterSome, List.filterMap_cons, List.filterMap_nil, id_eq]
  have h4 : regionCounts region3 = [2, 1] := by decide
  have h6 : nanmeanQ (materializeCellField mesh3 field3) = some 2 := by
    norm_num [nanmeanQ, filterSome, materializeCellField, mesh3, field3,
      List.filterMap_cons, List.filterMap_nil, id_eq]
  refine ⟨h1, h2, h3, h4, ?_, h6, by norm_num⟩
  rw [h1, h2, h3]
  norm_num [npAverage, filterSome, h4, List.filterMap_cons, List.filterMap_nil, id_eq,
    List.zip_cons_cons, List.zip_nil_right]

/-- C5 witness: three-cell mesh, NaN-free cell field, regions [0, 0, 1]. -/
theorem mean_field_per_region_spec_witness :
    (mean_field_per_region mesh3 field3nn region3).length
        = (uniqueSorted region3).length ∧
    (uniqueSorted region3).Sorted (· < ·) ∧
    (∀ x : ℤ, x ∈ uniqueSorted region3 ↔ x ∈ region3) ∧
    (∀ r ∈ uniqueSorted region3,
      nanmeanQ (regionValues (materializeCellField mesh3 field3nn) region3 r)
        = some ((filterSome (regionValues (materializeCellField mesh3 field3nn) region3 r)).sum
            / ((filterSome (regionValues (materializeCellField mesh3 field3nn) region3 r)).length : ℚ))) ∧
    some (npAverage (filterSome (mean_field_per_region mesh3 field3nn region3))
        (regionCounts region3))
      = nanmeanQ (materializeCellField mesh3 field3nn) ∧
    (field3nn.length = mesh3.points.length → mesh3.points.length ≠ mesh3.cells.length →
      mean_field_per_region mesh3 field3nn region3
        = mean_field_per_region mesh3 (materializeCellField mesh3 field3nn) region3) :=
  mean_field_per_region_spec mesh3 field3nn region3
    (by decide) (by decide) (by decide) (by decide)

/-! ## Nearest-boundary selection and ablation claim theorems -/

theorem ptDist_mono_sq (p q a b : Pt) (h : sqDistQ p q ≤ sqDistQ a b) :
    ptDist p q ≤ ptDist a b :=
  Real.sqrt_le_sqrt (by exact_mod_cast h)

theorem argminAux_spec (xs : List ℚ) :
    ∀ (full : List ℚ) (i best : ℕ) (bv : ℚ),
      xs = full.drop i →
      best < i →
      best < full.length →
      full.getD best 0 = bv →
      (∀ k < i, bv ≤ full.getD k 0) →
      argminAux xs i best bv < full.length ∧
        ∀ k < full.length, full.getD (argminAux xs i best bv) 0 ≤ full.getD k 0 := by
  induction xs with
  | nil =>
    intro full i best bv hsuf hbi hblen hbv hpre
    have hle : full.length ≤ i := by
      by_contra hcon
      push_neg at hcon
      have : full.drop i ≠ [] := by
        intro hd
        rw [List.drop_eq_nil_iff] at hd
        omega
      exact this hsuf.symm
    refine ⟨by simpa [argminAux] using hblen, ?_⟩
    intro k hk
    rw [argminAux, hbv]
    exact hpre k (by omega)
  | cons x rest ih =>
    intro full i best bv hsuf hbi hblen hbv hpre
    have hil : i < full.length := by
      by_contra hcon
      push_neg at hcon
      rw [List.drop_eq_nil_of_le hcon] at hsuf
      cases hsuf
    have hxi : full.getD i 0 = x := by
      have h0 : (full.drop i).getD 0 0 = x := by rw [← hsuf]; rfl
      rw [List.getD_eq_getElem?_getD] at h0 ⊢
      rwa [List.getElem?_drop, Nat.add_zero] at h0
    have hrest : rest = full.drop (i + 1) := by
      have : (full.drop i).tail = rest := by rw [← hsuf]; rfl
      rw [← this, List.tail_drop]
    rw [argminAux]
    by_cases hlt : x < bv
    · rw [if_pos hlt]
      refine ih full (i + 1) i x hrest (by omega) hil hxi ?_
      intro k hk
      rcases Nat.lt_succ_iff_lt_or_eq.mp hk with hk | hk
      · exact le_trans (le_of_lt hlt) (hpre k hk)
      · rw [hk, hxi]
    · rw [if_neg hlt]
      push_neg at hlt
      refine ih full (i + 1) best bv hrest (by omega) hblen hbv ?_
      intro k hk
      rcases Nat.lt_succ_iff_lt_or_eq.mp hk with hk | hk
      · exact hpre k hk
      · rw [hk, hxi]; exact hlt

theorem argminIdx_spec (l : List ℚ) (hl : l ≠ []) :
    argminIdx l < l.length ∧ ∀ k < l.length, l.getD (argminIdx l) 0 ≤ l.getD k 0 := by
  cases l with
  | nil => exact absurd rfl hl
  | cons x rest =>
    rw [argminIdx]
    exact argminAux_spec rest (x :: rest) 1 0 x rfl (by omega) (by simp) rfl
      (by intro k hk; interval_cases k; rfl)

/-- C9: with more than one boundary, `find_mesh_points_at_distance` selects
a loop whose centroid is at minimal Euclidean distance from the mean of the
points of interest; with exactly one boundary the extractor's points are
returned unchanged. -/
theorem find_nearest_boundary_spec (loops : List (List Pt))
    (boundaryPoints points_of_interest : List Pt) :
    (1 < loops.length →
      ∃ i, i < loops.length ∧
        find_nearest_boundary loops boundaryPoints points_of_interest
          = loops.getD i [] ∧
        ∀ j < loops.length,
          ptDist (centroid (loops.getD i [])) (centroid points_of_interest)
            ≤ ptDist (centroid (loops.getD j [])) (centroid points_of_interest)) ∧
    (loops.length = 1 →
      find_nearest_boundary loops boundaryPoints points_of_interest
        = boundaryPoints) := by
  constructor
  · intro hgt
    have hne : loops.map (fun loop =>
        sqDistQ (centroid loop) (centroid points_of_interest)) ≠ [] := by
      intro hcon
      rw [List.map_eq_nil_iff] at hcon
      rw [hcon] at hgt
      simp at hgt
    obtain ⟨hlt, hmin⟩ := argminIdx_spec _ hne
    rw [List.length_map] at hlt
    refine ⟨argminIdx (loops.map (fun loop =>
      sqDistQ (centroid loop) (centroid points_of_interest))), hlt, ?_, ?_⟩
    · rw [find_nearest_boundary, if_pos hgt]
    · intro j hj
      have hgetA : (loops.map (fun loop =>
          sqDistQ (centroid loop) (centroid points_of_interest))).getD
            (argminIdx (loops.map (fun loop =>
              sqDistQ (centroid loop) (centroid points_of_interest)))) 0
          = sqDistQ (centroid (loops.getD (argminIdx (loops.map (fun loop =>
              sqDistQ (centroid loop) (centroid points_of_interest)))) []))
            (centroid points_of_interest) := by
        rw [List.getD_eq_getElem?_getD, List.getD_eq_getElem?_getD,
          List.getElem?_eq_getElem (by simpa using hlt),
          List.getElem?_eq_getElem hlt, List.getElem_map]
        rfl
      have hgetB : (loops.map (fun loop =>
          sqDistQ (centroid loop) (centroid points_of_interest))).getD j 0
          = sqDistQ (centroid (loops.getD j [])) (centroid points_of_interest) := by
        rw [List.getD_eq_getElem?_getD, List.getD_eq_getElem?_getD,
          List.getElem?_eq_getElem (by simpa using hj),
          List.getElem?_eq_getElem hj, List.getElem_map]
        rfl
      have := hmin j (by simpa using hj)
      rw [hgetA, hgetB] at this
      exact ptDist_mono_sq _ _ _ _ this
  · intro h1
    rw [find_nearest_boundary, if_neg (by omega)]

/-- C9 witness: three loops and a single loop at concrete points. -/
theorem find_nearest_boundary_spec_witness :
    (∃ i, i < loopsW.length ∧
      find_nearest_boundary loopsW bptsW poiW = loopsW.getD i [] ∧
      ∀ j < loopsW.length,
        ptDist (centroid (loopsW.getD i [])) (centroid poiW)
          ≤ ptDist (centroid (loopsW.getD j [])) (centroid poiW)) ∧
    find_nearest_boundary loops1W bptsW poiW = bptsW :=
  ⟨(find_nearest_boundary_spec loopsW bptsW poiW).1 (by decide),
   (find_nearest_boundary_spec loops1W bptsW poiW).2 (by decide)⟩

/-- C10: the `Ablation` constructor's post-init hook unconditionally
replaces `auto_index` with a fresh empty `AblationAutoIndex` (also when a
non-None `auto_index` is passed), while `force` is preserved when non-None
and replaced by a fresh `AblationForce` only when None; however
`Ablation.copy` never produces such an Ablation: it always raises
`AttributeError` because `AblationAutoIndex.copy` reads `self.points`, an
attribute that `AblationAutoIndex.__init__` never assigns. -/
theorem ablation_copy_auto_index_bug :
    (∀ t p i te force ai, (mkAblation t p i te force (some ai)).auto_index
      = ablationAutoIndexInit PyVal.none PyVal.none PyVal.none PyVal.none
          PyVal.none PyVal.none) ∧
    (∀ t p i te fo ai, (mkAblation t p i te (some fo) ai).force = fo) ∧
    (∀ t p i te ai, (mkAblation t p i te none ai).force = emptyAblationForce) ∧
    (∀ t p i te force ai, Ablation.copy (mkAblation t p i te force ai)
      = Except.error (PyError.attributeError "points")) :=
  ⟨fun _ _ _ _ _ _ => rfl, fun _ _ _ _ _ _ => rfl, fun _ _ _ _ _ => rfl,
   fun _ _ _ _ _ _ => rfl⟩
